import Mathlib

/-!
Verification development for the drive-api-tool repository.

Python strings are modelled as lists of Unicode code points (`List Nat`);
`bytes` values are never materialised: the UTF-8 encode / slice / decode
composites of the source are modelled by byte-length computations on code
points.  Machine integers are `Nat`/`Int`.  Opaque Drive ids are `Nat` in
the crawl/store models and code-point lists where their text matters.
-/

set_option maxHeartbeats 1000000
set_option maxRecDepth 8000
set_option linter.unusedVariables false

namespace DriveTool

/-! ## Python string model (util.py) -/

abbrev PyStr := List Nat

/-- Code points of a Lean string literal, used to write concrete Python
string constants from the source. -/
def cps (s : String) : PyStr := s.data.map Char.toNat

/-- Number of bytes of one code point under UTF-8. -/
def utf8Len (c : Nat) : Nat :=
  if c < 0x80 then 1 else if c < 0x800 then 2 else if c < 0x10000 then 3 else 4

/-- Models `len(s.encode())`: the UTF-8 byte length of a Python string. -/
def byteLen (s : PyStr) : Nat := (s.map utf8Len).sum

/-- Models the regex `ASCII_CONTROL = [\x00-\x1f\x7f]` from util.py. -/
def isAsciiControl (c : Nat) : Bool := c ≤ 0x1f || c == 0x7f

/-- Models the regex `FILENAME_FORBIDDEN = [\\/:*?"<>|]` from util.py. -/
def isForbiddenChar (c : Nat) : Bool :=
  c == '\\'.toNat || c == '/'.toNat || c == ':'.toNat || c == '*'.toNat ||
  c == '?'.toNat || c == '\"'.toNat || c == '<'.toNat || c == '>'.toNat ||
  c == '|'.toNat

/-- The `FORBIDDEN_SUB` lookalike table of util.py, as a function on the
forbidden code points (it is only ever applied to forbidden characters). -/
def FORBIDDEN_SUB (c : Nat) : Nat :=
  if c = '\\'.toNat then '⧹'.toNat
  else if c = '/'.toNat then '⧸'.toNat
  else if c = ':'.toNat then '꞉'.toNat
  else if c = '*'.toNat then '∗'.toNat
  else if c = '?'.toNat then '？'.toNat
  else if c = '\"'.toNat then '″'.toNat
  else if c = '<'.toNat then '﹤'.toNat
  else if c = '>'.toNat then '﹥'.toNat
  else if c = '|'.toNat then '￨'.toNat
  else c

/-- Code points stripped by Python `str.strip()` (whitespace). -/
def pyIsSpace (c : Nat) : Bool :=
  c ∈ [0x09, 0x0a, 0x0b, 0x0c, 0x0d, 0x1c, 0x1d, 0x1e, 0x1f, 0x20, 0x85,
       0xa0, 0x1680, 0x2028, 0x2029, 0x202f, 0x205f, 0x3000] ||
  (0x2000 ≤ c && c ≤ 0x200a)

/-- Models Python `str.strip()`. -/
def pyStrip (s : PyStr) : PyStr :=
  ((s.dropWhile pyIsSpace).reverse.dropWhile pyIsSpace).reverse

/-- Models a match of the regex `LEADING_DASH_DOT = _*[-.]` at the start of
the string. -/
def leadingDashDot (s : PyStr) : Bool :=
  match s.dropWhile (fun c => c == '_'.toNat) with
  | [] => false
  | c :: _ => c == '-'.toNat || c == '.'.toNat

/-- The `MAX_BYTES` constant of util.py. -/
def MAX_BYTES : Nat := 255

/-- Greedy code-point prefix of `s` whose UTF-8 encoding fits in `k` bytes.
This is the value of `s.encode()[:k].decode(errors="ignore")` for `k ≥ 0`:
slicing a valid UTF-8 encoding at byte `k` keeps every code point that fits
entirely and leaves at most one clipped trailing sequence, which the
`ignore` error handler drops. -/
def takeBytes : PyStr → Nat → PyStr
  | [], _ => []
  | c :: rest, k => if utf8Len c ≤ k then c :: takeBytes rest (k - utf8Len c) else []

/-- Models `s.encode()[:m].decode(errors="ignore")` for a Python `int` slice
bound `m`, including the negative-index semantics of Python slicing
(`b[:m]` with `m < 0` keeps the first `len(b) - |m|` bytes, clamped at 0). -/
def pyByteSliceDecode (s : PyStr) (m : Int) : PyStr :=
  let k : Nat := if m < 0 then byteLen s - m.natAbs else m.toNat
  takeBytes s k

/-- util.py `sanitize_filename`.  Note line 30 of the source unconditionally
rebinds the `forbidden_sub` parameter to the module table before the
`if forbidden_sub is None` test. -/
def sanitize_filename (filename : PyStr) (reserved_space : Nat)
    (forbidden_sub : Option (Nat → Nat)) : PyStr :=
  let fsub : Option (Nat → Nat) := some FORBIDDEN_SUB
  let f1 := filename.filter (fun c => !(isAsciiControl c))
  let f2 :=
    match fsub with
    | none => f1.map (fun c => if isForbiddenChar c then '_'.toNat else c)
    | some tbl => f1.map (fun c => if isForbiddenChar c then tbl c else c)
  let f3 := pyStrip f2
  let f4 := if leadingDashDot f3 then '_'.toNat :: f3 else f3
  let maxBytes : Int := (MAX_BYTES : Int) - (reserved_space : Int)
  if (byteLen f4 : Int) > maxBytes then pyStrip (pyByteSliceDecode f4 maxBytes)
  else f4

/-- The same computation with the dead underscore branch removed and the
fixed lookalike table applied unconditionally; written from the spec words
for comparison with `sanitize_filename`. -/
def sanitize_filename_fixed (filename : PyStr) (reserved_space : Nat) : PyStr :=
  let f1 := filename.filter (fun c => !(isAsciiControl c))
  let f2 := f1.map (fun c => if isForbiddenChar c then FORBIDDEN_SUB c else c)
  let f3 := pyStrip f2
  let f4 := if leadingDashDot f3 then '_'.toNat :: f3 else f3
  let maxBytes : Int := (MAX_BYTES : Int) - (reserved_space : Int)
  if (byteLen f4 : Int) > maxBytes then pyStrip (pyByteSliceDecode f4 maxBytes)
  else f4

/-! ## Item.filename (dl.py) -/

/-- Mime type of folders. -/
def folderMime : PyStr := cps "application/vnd.google-apps.folder"

/-- The `WORKSPACE_MIME_TYPES` list of dl.py. -/
def WORKSPACE_MIME_TYPES : List PyStr :=
  [cps "application/vnd.google-apps.document",
   cps "application/vnd.google-apps.drawing",
   cps "application/vnd.google-apps.presentation",
   cps "application/vnd.google-apps.script",
   cps "application/vnd.google-apps.spreadsheet"]

/-- The `WORKSPACE_EXPORT_MIME_EXTENSION` table of dl.py (extension values
only, which is all the filename computation consumes). -/
def WORKSPACE_EXPORT_MIME_EXTENSIONS : List PyStr :=
  [cps ".epub", cps ".pdf", cps ".rtf", cps ".json", cps ".odp", cps ".odt",
   cps ".pptx", cps ".xlsx", cps ".docx", cps ".ods", cps ".zip", cps ".jpeg",
   cps ".png", cps ".svg", cps ".csv", cps ".html", cps ".txt", cps ".tsv"]

/-- `WORKSPACE_EXPORT_MIME_EXTENSION_MAX_LEN` from dl.py: the maximum
character length among export extensions. -/
def WORKSPACE_EXPORT_MIME_EXTENSION_MAX_LEN : Nat :=
  (WORKSPACE_EXPORT_MIME_EXTENSIONS.map List.length).foldl Nat.max 0

/-- The metadata fields of an `Item` (dl.py) that its `filename` method
reads.  `version` is stored as its decimal string. -/
structure Item where
  name : PyStr
  id : PyStr
  version : PyStr
  mimeType : PyStr
  fullFileExtension : Option PyStr

/-- `Item.is_folder`. -/
def Item.is_folder (i : Item) : Bool := i.mimeType == folderMime

/-- `Item.is_workspace_doc`. -/
def Item.is_workspace_doc (i : Item) : Bool :=
  WORKSPACE_MIME_TYPES.contains i.mimeType

/-- The branch of `Item.filename` that selects the human-readable name
component, the untruncatable suffix, and the base reserved space (5 bytes
for the `.json` sidecar, plus the widest export extension for Workspace
documents).  Mirrors dl.py lines 110-133. -/
def Item.nameSuffix (item : Item) : PyStr × PyStr × Nat :=
  if item.is_folder then
    (item.name, '_'.toNat :: item.id, 5)
  else if item.is_workspace_doc then
    (item.name, ('_'.toNat :: item.id) ++ ('_'.toNat :: item.version),
     5 + WORKSPACE_EXPORT_MIME_EXTENSION_MAX_LEN)
  else
    match item.fullFileExtension with
    | some ext =>
        if ext ≠ [] ∧ ext.isSuffixOf item.name then
          (item.name.take (item.name.length - (1 + ext.length)),
           ('_'.toNat :: item.id) ++ ('.'.toNat :: ext), 5)
        else (item.name, '_'.toNat :: item.id, 5)
    | none => (item.name, '_'.toNat :: item.id, 5)

/-- `Item.filename` (dl.py lines 110-135): sanitize the name component with
space reserved for the suffix, then append the suffix verbatim. -/
def Item.filename (item : Item) (forbidden_sub : Option (Nat → Nat)) : PyStr :=
  let p := item.nameSuffix
  sanitize_filename p.1 (p.2.2 + p.2.1.length) forbidden_sub ++ p.2.1

/-! ## Byte-length lemmas -/

theorem byteLen_append (a b : PyStr) : byteLen (a ++ b) = byteLen a + byteLen b := by
  simp [byteLen]

theorem byteLen_reverse (a : PyStr) : byteLen a.reverse = byteLen a := by
  simp [byteLen, List.sum_reverse]

theorem utf8Len_pos (c : Nat) : 1 ≤ utf8Len c := by
  unfold utf8Len
  repeat' split
  all_goals omega

theorem byteLen_sublist {a b : PyStr} (h : a.Sublist b) : byteLen a ≤ byteLen b := by
  induction h with
  | slnil => exact Nat.le_refl _
  | cons c _ ih => simpa [byteLen] using ih.trans (Nat.le_add_left _ _)
  | cons₂ c _ ih => simpa [byteLen] using ih

theorem byteLen_dropWhile_le (p : Nat → Bool) (s : PyStr) :
    byteLen (s.dropWhile p) ≤ byteLen s :=
  byteLen_sublist (List.dropWhile_sublist p)

theorem byteLen_pyStrip_le (s : PyStr) : byteLen (pyStrip s) ≤ byteLen s := by
  unfold pyStrip
  calc byteLen ((s.dropWhile pyIsSpace).reverse.dropWhile pyIsSpace).reverse
      = byteLen ((s.dropWhile pyIsSpace).reverse.dropWhile pyIsSpace) :=
        byteLen_reverse _
    _ ≤ byteLen (s.dropWhile pyIsSpace).reverse := byteLen_dropWhile_le _ _
    _ = byteLen (s.dropWhile pyIsSpace) := byteLen_reverse _
    _ ≤ byteLen s := byteLen_dropWhile_le _ _

theorem byteLen_takeBytes_le (s : PyStr) (k : Nat) : byteLen (takeBytes s k) ≤ k := by
  induction s generalizing k with
  | nil => simp [takeBytes, byteLen]
  | cons c rest ih =>
      unfold takeBytes
      split
      · next h =>
          have ht := ih (k - utf8Len c)
          unfold byteLen at ht ⊢
          simp only [List.map_cons, List.sum_cons]
          omega
      · simp [byteLen]

theorem byteLen_ascii {s : PyStr} (h : ∀ c ∈ s, c < 0x80) :
    byteLen s = s.length := by
  induction s with
  | nil => rfl
  | cons c rest ih =>
      have hc : utf8Len c = 1 := by
        have := h c (List.mem_cons_self c rest)
        unfold utf8Len
        simp [this]
      have := ih (fun d hd => h d (List.mem_cons_of_mem c hd))
      simp [byteLen, hc] at this ⊢
      omega

/-- The final truncation step of `sanitize_filename` bounds the byte length
whenever the reservation fits in the total budget. -/
theorem trunc_step_bound (f4 : PyStr) (rs : Nat) (h : rs ≤ MAX_BYTES) :
    byteLen (if (byteLen f4 : Int) > (MAX_BYTES : Int) - (rs : Int) then
               pyStrip (pyByteSliceDecode f4 ((MAX_BYTES : Int) - (rs : Int)))
             else f4) ≤ MAX_BYTES - rs := by
  split
  · refine (byteLen_pyStrip_le _).trans ?_
    simp only [pyByteSliceDecode]
    have hk : ¬ ((MAX_BYTES : Int) - (rs : Int) < 0) := by omega
    rw [if_neg hk]
    refine (byteLen_takeBytes_le _ _).trans ?_
    omega
  · next hle =>
      push_neg at hle
      omega

/-- Core budget bound for `sanitize_filename` when the reservation fits in
the total budget. -/
theorem sanitize_filename_byteLen (n : PyStr) (rs : Nat)
    (fsub : Option (Nat → Nat)) (h : rs ≤ MAX_BYTES) :
    byteLen (sanitize_filename n rs fsub) ≤ MAX_BYTES - rs := by
  simp only [sanitize_filename]
  exact trunc_step_bound _ rs h

/-- C9 counterexample item: a long name with a two-byte (non-ASCII)
`fullFileExtension`.  The reservation counts characters, not bytes, so the
resulting filename exceeds the 250-byte budget that must be left for the
`.json` sidecar. -/
def overflowItem : Item :=
  { name := List.replicate 246 'a'.toNat ++ ['.'.toNat, 0xE9]
    id := ['i'.toNat]
    version := ['1'.toNat]
    mimeType := cps "text/plain"
    fullFileExtension := some [0xE9] }

/-- C9 witness item: an ordinary file with a recognised ASCII extension. -/
def plainItem : Item :=
  { name := cps "report.txt"
    id := cps "abc"
    version := cps "3"
    mimeType := cps "text/plain"
    fullFileExtension := some (cps "txt") }

/-- C9 (counterexample): on `overflowItem`, the filename returned by
`Item.filename` is 251 bytes in UTF-8, exceeding the claimed maximum of
`MAX_BYTES - 5 = 250` bytes (255 minus the space reserved for the `.json`
sidecar; no export extension applies to a plain file), so the claim as
stated is false. -/
theorem filename_budget_counterexample :
    MAX_BYTES - 5 < byteLen (overflowItem.filename none) := by decide

/-- C9 (amended): whenever the id/version/extension suffix is ASCII and the
total reservation fits in the 255-byte budget, the filename's UTF-8 byte
length is at most 255 minus the base reservation (5 sidecar bytes, plus the
widest export extension for Workspace documents), and the suffix appears
untruncated at the end of the result. -/
theorem filename_budget (item : Item) (fsub : Option (Nat → Nat))
    (hascii : ∀ c ∈ item.nameSuffix.2.1, c < 0x80)
    (hfit : item.nameSuffix.2.2 + item.nameSuffix.2.1.length ≤ MAX_BYTES) :
    byteLen (item.filename fsub) ≤ MAX_BYTES - item.nameSuffix.2.2 ∧
    ∃ pre, item.filename fsub = pre ++ item.nameSuffix.2.1 := by
  constructor
  · have hrs : item.nameSuffix.2.2 + item.nameSuffix.2.1.length ≤ MAX_BYTES := hfit
    have hb := sanitize_filename_byteLen item.nameSuffix.1
      (item.nameSuffix.2.2 + item.nameSuffix.2.1.length) fsub hrs
    have hsuffix : byteLen item.nameSuffix.2.1 = item.nameSuffix.2.1.length :=
      byteLen_ascii hascii
    unfold Item.filename
    rw [byteLen_append, hsuffix]
    omega
  · exact ⟨_, rfl⟩

/-- C9 (witness): the amended bound evaluated on `plainItem`. -/
theorem filename_budget_witness :
    byteLen (plainItem.filename none) ≤ MAX_BYTES - plainItem.nameSuffix.2.2 ∧
    ∃ pre, plainItem.filename none = pre ++ plainItem.nameSuffix.2.1 :=
  filename_budget plainItem none (by decide) (by decide)

/-- C10: `sanitize_filename` ignores its `forbidden_sub` argument: any two
argument values give the same output, and the output always equals the
variant that unconditionally applies the fixed lookalike table — the
underscore-placeholder branch is unreachable. -/
theorem sanitize_filename_forbidden_sub_irrelevant :
    (∀ f rs a b, sanitize_filename f rs a = sanitize_filename f rs b) ∧
    (∀ f rs a, sanitize_filename f rs a = sanitize_filename_fixed f rs) :=
  ⟨fun _ _ _ _ => rfl, fun _ _ _ => rfl⟩

/-! ## Configuration errors (rate_limit.py lines 13-15, dl.py line 419) -/

inductive PyErr where
  | valueError
  | typeError
  deriving DecidableEq

/-- The configuration check at the top of `rate_limited_as_completed`
(rate_limit.py lines 14-15). -/
def rate_limited_config_check (max_concurrent quota : Nat) : Except PyErr Unit :=
  if max_concurrent > quota then .error .valueError else .ok ()

/-- Number of positional parameters (besides `self`) accepted by
`util.ErrorTracker.__init__`, which is declared as `__init__(self, indent=None)`. -/
def errorTracker_positional_params : Nat := 1

/-- Python call-arity semantics for constructing `util.ErrorTracker` with
`posArgs` positional arguments: more arguments than parameters raises
`TypeError`. -/
def pyCall_ErrorTracker (posArgs : Nat) : Except PyErr Unit :=
  if posArgs ≤ errorTracker_positional_params then .ok () else .error .typeError

/-- dl.py line 419 executes `ErrorTracker(logger, indent)` — two positional
arguments — before the crawl loop starts. -/
def getMetadataRecursive_errTrack_call : Except PyErr Unit :=
  pyCall_ErrorTracker 2

/-- C7: the configuration check of `rate_limited_as_completed` raises
exactly when `max_concurrent > quota`; but the crawl does not reach it:
`get_metadata_recursive` constructs `ErrorTracker(logger, indent)` before
any traversal work, and `util.ErrorTracker.__init__` accepts only `indent`,
so every run — valid configuration or not — aborts with a `TypeError`
before work starts, contradicting the claim. -/
theorem config_abort_behaviour :
    (∀ c q, rate_limited_config_check c q = .error .valueError ↔ c > q) ∧
    getMetadataRecursive_errTrack_call = .error .typeError := by
  refine ⟨fun c q => ?_, rfl⟩
  unfold rate_limited_config_check
  by_cases hgt : c > q
  · simp [hgt]
  · simp [hgt]

/-! ## Recovery reconstruction (dl.py `restore_queues`, `fix_restore_queues`)

The store is modelled by the data the two functions read from it: the
`metadata` table as a list of `(id, is_folder)` pairs (the mime type is only
tested against the folder constant) and the `hierarchy` table as the list of
`(parent_id, child_id)` rows in `rowid` order.  Ids are opaque `Nat`. -/

/-- Ids of metadata rows whose mime type is the folder type. -/
def folderIds (meta : List (Nat × Bool)) : Finset Nat :=
  ((meta.filter (fun r => r.2)).map (fun r => r.1)).toFinset

/-- Ids of metadata rows with a non-folder mime type. -/
def nonFolderIds (meta : List (Nat × Bool)) : Finset Nat :=
  ((meta.filter (fun r => !r.2)).map (fun r => r.1)).toFinset

/-- All ids present in the metadata table. -/
def metaIds (meta : List (Nat × Bool)) : Finset Nat :=
  (meta.map (fun r => r.1)).toFinset

/-- `SELECT DISTINCT(parent_id) FROM hierarchy`. -/
def haveChildren (hier : List (Nat × Nat)) : Finset Nat :=
  (hier.map (fun e => e.1)).toFinset

/-- `SELECT DISTINCT(child_id) FROM hierarchy`. -/
def actualChildrenHierarchy (hier : List (Nat × Nat)) : Finset Nat :=
  (hier.map (fun e => e.2)).toFinset

/-- The `N = 1000 * 2` lookback window of `restore_queues`. -/
def RESTORE_N : Nat := 1000 * 2

/-- The `BACKUP = 50` floor of `restore_queues`. -/
def RESTORE_BACKUP : Nat := 50

/-- Parents of the last `RESTORE_N` hierarchy rows (`ORDER BY rowid DESC
LIMIT N`, then distinct parents). -/
def lastNParents (hier : List (Nat × Nat)) : Finset Nat :=
  ((hier.reverse.take RESTORE_N).map (fun e => e.1)).toFinset

/-- `SELECT DISTINCT parent_id FROM hierarchy ORDER BY rowid DESC LIMIT
BACKUP`: the first `RESTORE_BACKUP` distinct parents in reverse row order. -/
def backupParents (hier : List (Nat × Nat)) : Finset Nat :=
  ((hier.reverse.map (fun e => e.1)).dedup.take RESTORE_BACKUP).toFinset

/-- The `last_n_parent_id` set after the backup floor is applied. -/
def lastNWithBackup (hier : List (Nat × Nat)) : Finset Nat :=
  let l := lastNParents hier
  if l.card < RESTORE_BACKUP then l ∪ backupParents hier else l

/-- A reconstructed crawl frontier: the four sets returned by the two
recovery functions. -/
structure Frontier where
  foldersQueue : Finset Nat
  foldersSeen : Finset Nat
  idsQueue : Finset Nat
  idsSeen : Finset Nat

/-- dl.py `restore_queues` (lines 164-279): the set computations performed
on the loaded store, with `original_ids` the seed id list. -/
def restore_queues (original_ids : List Nat) (meta : List (Nat × Bool))
    (hier : List (Nat × Nat)) : Frontier :=
  let redo_folder := ((folderIds meta \ haveChildren hier) ∪
      (haveChildren hier \ folderIds meta)) ∪ lastNWithBackup hier
  let export_folders_queue := redo_folder
  let export_folders_seen := folderIds meta \ export_folders_queue
  let export_ids_seen := nonFolderIds meta
  let original_and_children_non_folder :=
    (original_ids.toFinset ∪ actualChildrenHierarchy hier) \
      (export_folders_queue ∪ export_folders_seen)
  let export_ids_queue :=
    (original_and_children_non_folder ∪ nonFolderIds meta) \ export_ids_seen
  ⟨export_folders_queue, export_folders_seen, export_ids_queue, export_ids_seen⟩

/-- dl.py `fix_restore_queues` (lines 283-327): missing parents (parents in
the hierarchy table with no metadata row) go to the generic-id queue for a
metadata-only refetch and are marked folder-seen so they are never
expanded. -/
def fix_restore_queues (meta : List (Nat × Bool)) (hier : List (Nat × Nat)) :
    Frontier :=
  let missing_parents := haveChildren hier \ metaIds meta
  ⟨∅, folderIds meta ∪ missing_parents, missing_parents,
   nonFolderIds meta ∪ folderIds meta⟩

/-- C5: no suspect folder is dropped by recovery.  In `restore_queues`,
every stored folder with zero outgoing edges and every id referenced as a
parent without a metadata row lands in the reconstructed `foldersQueue`, and
every other stored folder lands in `foldersSeen`; in `fix_restore_queues`,
every missing parent lands in the generic-id queue and every stored folder
in `foldersSeen`. -/
theorem restore_no_suspect_dropped (orig : List Nat) (meta : List (Nat × Bool))
    (hier : List (Nat × Nat)) :
    (∀ f, f ∈ folderIds meta → f ∉ haveChildren hier →
       f ∈ (restore_queues orig meta hier).foldersQueue) ∧
    (∀ g, g ∈ haveChildren hier → g ∉ metaIds meta →
       g ∈ (restore_queues orig meta hier).foldersQueue) ∧
    (∀ f, f ∈ folderIds meta → f ∉ (restore_queues orig meta hier).foldersQueue →
       f ∈ (restore_queues orig meta hier).foldersSeen) ∧
    (∀ g, g ∈ haveChildren hier → g ∉ metaIds meta →
       g ∈ (fix_restore_queues meta hier).idsQueue) ∧
    (∀ f, f ∈ folderIds meta → f ∈ (fix_restore_queues meta hier).foldersSeen) := by
  have hsub : ∀ x, x ∈ folderIds meta → x ∈ metaIds meta := by
    intro x hx
    simp only [folderIds, List.mem_toFinset, List.mem_map] at hx
    obtain ⟨r, hr, hrx⟩ := hx
    simp only [metaIds, List.mem_toFinset, List.mem_map]
    exact ⟨r, (List.mem_filter.mp hr).1, hrx⟩
  refine ⟨?_, ?_, ?_, ?_, ?_⟩
  · intro f hf hnc
    simp [restore_queues, hf, hnc]
  · intro g hg hnm
    have : g ∉ folderIds meta := fun hmem => hnm (hsub g hmem)
    simp [restore_queues, hg, this]
  · intro f hf hq
    simp only [restore_queues, Finset.mem_sdiff]
    exact ⟨hf, hq⟩
  · intro g hg hnm
    simp [fix_restore_queues, hg, hnm]
  · intro f hf
    simp [fix_restore_queues, hf]

/-- C5 (witness): a store where folder 1 has metadata but no edges and id 2
is a parent in the hierarchy with no metadata row: 1 and 2 land in the
restored `foldersQueue`, folder 4 (with edges) lands in `foldersSeen`, and 2
lands in the fix-mode generic-id queue. -/
theorem restore_no_suspect_dropped_witness :
    1 ∈ (restore_queues [] [(1, true), (3, false), (4, true)]
          [(2, 3), (4, 3)]).foldersQueue ∧
    2 ∈ (restore_queues [] [(1, true), (3, false), (4, true)]
          [(2, 3), (4, 3)]).foldersQueue ∧
    2 ∈ (fix_restore_queues [(1, true), (3, false), (4, true)]
          [(2, 3), (4, 3)]).idsQueue ∧
    4 ∈ (fix_restore_queues [(1, true), (3, false), (4, true)]
          [(2, 3), (4, 3)]).foldersSeen := by
  have h := restore_no_suspect_dropped [] [(1, true), (3, false), (4, true)]
    [(2, 3), (4, 3)]
  exact ⟨h.1 1 (by decide) (by decide), h.2.1 2 (by decide) (by decide),
         h.2.2.2.1 2 (by decide) (by decide), h.2.2.2.2 4 (by decide)⟩

/-! ## Crawl frontier machine (dl.py `get_metadata_recursive`)

The crawl loop of dl.py lines 474-573 is modelled as a labelled transition
system over the in-memory frontier.  The remote service is an oracle: each
batch step takes the list of responses that came back (in completion order)
as a parameter; failed requests simply do not appear, matching the
`if not res: continue` handling.  Store writes (`metadata_queue`,
`hierarchy_queue`) do not touch the frontier and are omitted.  Each batch is
one atomic step: the Python between two awaits runs without interleaving,
and no frontier transition happens inside a batch other than the ones
folded here. -/

/-- Mime kinds distinguished by the crawl (`mimeType` comparisons). -/
inductive MimeK where
  | folder
  | shortcut
  | other
  deriving DecidableEq

/-- The fields of one fetched file record that the frontier logic reads.
`shortcutTarget` models `res["shortcutDetails"]["targetId"]` (requested
whenever shortcut-following is enabled). -/
structure FileRes where
  id : Nat
  mimeK : MimeK
  parents : Option (List Nat)
  shortcutTarget : Nat

/-- One `files.list` response for a folder: the wrapped folder id, the
children records of this page, and the next page token if any. -/
structure FolderRes where
  folderId : Nat
  children : List FileRes
  nextPage : Option Nat

/-- Program points of the crawl loop: the outer `while` test, the inner
folder-draining `while` test, the `if ids_queue` test, and loop exit. -/
inductive CrawlPc where
  | outerCheck
  | innerCheck
  | idsCheck
  | finished
  deriving DecidableEq

/-- The in-memory crawl frontier plus the loop program counter. -/
structure CrawlSt where
  foldersContinue : List (Nat × Option Nat)
  foldersQueue : Finset Nat
  foldersSeen : Finset Nat
  idsQueue : Finset Nat
  idsSeen : Finset Nat
  pc : CrawlPc

/-- `CHUNK_SIZE = quota * 5` (dl.py line 366). -/
def CHUNK_SIZE (quota : Nat) : Nat := quota * 5

/-- The loop body of the `follow_parents` branch of
`queue_parent_folder_shortcut`: queue one parent id as folder work unless
already seen or queued. -/
def addParentFolder (s : CrawlSt) (p : Nat) : CrawlSt :=
  if p ∉ s.foldersSeen ∧ p ∉ s.foldersQueue then
    { s with foldersQueue := insert p s.foldersQueue }
  else s

/-- The `follow_parents and "parents" in res` branch of
`queue_parent_folder_shortcut`. -/
def queueParents (followParents : Bool) (res : FileRes) (s : CrawlSt) : CrawlSt :=
  if followParents then
    match res.parents with
    | some ps => ps.foldl addParentFolder s
    | none => s
  else s

/-- The folder / shortcut `if`-`elif` of `queue_parent_folder_shortcut`. -/
def queueFolderShortcut (followShortcuts : Bool) (res : FileRes) (s : CrawlSt) : CrawlSt :=
  if res.mimeK = .folder ∧ res.id ∉ s.foldersSeen ∧ res.id ∉ s.foldersQueue then
    { s with foldersQueue := insert res.id s.foldersQueue }
  else if followShortcuts ∧ res.mimeK = .shortcut then
    if res.shortcutTarget ∉ s.idsSeen ∧ res.shortcutTarget ∉ s.idsQueue then
      { s with idsQueue := insert res.shortcutTarget s.idsQueue }
    else s
  else s

/-- dl.py `queue_parent_folder_shortcut` (lines 424-450): queue parent,
folder, and shortcut-target ids. -/
def queue_parent_folder_shortcut (followParents followShortcuts : Bool)
    (res : FileRes) (s : CrawlSt) : CrawlSt :=
  queueFolderShortcut followShortcuts res (queueParents followParents res s)

/-- Processing of one discovered child in the folder-listing loop (dl.py
lines 518-546): mark it seen, drop it from the generic-id queue if it was
waiting there, then queue parent/folder/shortcut work from its record. -/
def processChild (followParents followShortcuts : Bool) (child : FileRes)
    (s : CrawlSt) : CrawlSt :=
  queue_parent_folder_shortcut followParents followShortcuts child
    { s with idsSeen := insert child.id s.idsSeen,
             idsQueue := s.idsQueue.erase child.id }

/-- Push a continuation entry when a folder listing has a next page token
(dl.py lines 513-516). -/
def pushContinuation (r : FolderRes) (s : CrawlSt) : CrawlSt :=
  match r.nextPage with
  | some tok => { s with foldersContinue := s.foldersContinue ++ [(r.folderId, some tok)] }
  | none => s

/-- Processing of one completed folder-listing response: push a
continuation when a next page token is present, then process each child. -/
def processFolderRes (followParents followShortcuts : Bool) (r : FolderRes)
    (s : CrawlSt) : CrawlSt :=
  r.children.foldl (fun st c => processChild followParents followShortcuts c st)
    (pushContinuation r s)

/-- Fold a whole folder batch of completed responses. -/
def processFolderBatch (followParents followShortcuts : Bool)
    (resps : List FolderRes) (s : CrawlSt) : CrawlSt :=
  resps.foldl (fun st r => processFolderRes followParents followShortcuts r st) s

/-- Fold a whole generic-id batch of completed `files.get` responses (dl.py
lines 561-570). -/
def processGetBatch (followParents followShortcuts : Bool)
    (resps : List FileRes) (s : CrawlSt) : CrawlSt :=
  resps.foldl (fun st r => queue_parent_folder_shortcut followParents followShortcuts r st) s

/-- Forming a folder chunk (dl.py lines 478-485): take continuations first,
then pop fresh folder ids into `foldersSeen`. -/
def takeFolderChunk (quota : Nat) (takeQ : List Nat) (s : CrawlSt) : CrawlSt :=
  { s with foldersContinue := s.foldersContinue.drop (CHUNK_SIZE quota),
           foldersQueue := s.foldersQueue \ takeQ.toFinset,
           foldersSeen := s.foldersSeen ∪ takeQ.toFinset }

/-- Forming a generic-id chunk (dl.py lines 553-556): pop ids into
`idsSeen`. -/
def takeIdsChunk (takeQ : List Nat) (s : CrawlSt) : CrawlSt :=
  { s with idsQueue := s.idsQueue \ takeQ.toFinset,
           idsSeen := s.idsSeen ∪ takeQ.toFinset }

/-- Replace the program counter. -/
def setPc (s : CrawlSt) (p : CrawlPc) : CrawlSt := { s with pc := p }

/-- Python truthiness of `folders_continue or folders_queue or ids_queue`. -/
def hasWork (s : CrawlSt) : Prop :=
  s.foldersContinue ≠ [] ∨ s.foldersQueue ≠ ∅ ∨ s.idsQueue ≠ ∅

instance (s : CrawlSt) : Decidable (hasWork s) := by
  unfold hasWork
  infer_instance

/-- Step labels: control-flow tests, a folder-listing batch, or a
generic-id (`files.get`) batch. -/
inductive CrawlLabel where
  | control
  | listBatch
  | getBatch
  deriving DecidableEq

/-- One transition of the crawl loop.  Batch steps carry the oracle
responses; the number of ids popped into a chunk follows the source
(`min(CHUNK_SIZE - len(ids), len(folders_queue))`, resp.
`min(len(ids_queue), CHUNK_SIZE)`). -/
inductive CrawlStep (fp fs : Bool) (quota : Nat) : CrawlSt → CrawlLabel → CrawlSt → Prop where
  | enter (s : CrawlSt) (hpc : s.pc = .outerCheck) (hw : hasWork s) :
      CrawlStep fp fs quota s .control (setPc s .innerCheck)
  | finish (s : CrawlSt) (hpc : s.pc = .outerCheck) (hw : ¬ hasWork s) :
      CrawlStep fp fs quota s .control (setPc s .finished)
  | listBatch (s : CrawlSt) (hpc : s.pc = .innerCheck)
      (hw : s.foldersContinue ≠ [] ∨ s.foldersQueue ≠ ∅)
      (takeQ : List Nat) (hnd : takeQ.Nodup)
      (hsub : ∀ i ∈ takeQ, i ∈ s.foldersQueue)
      (hlen : takeQ.length =
        min (CHUNK_SIZE quota - (s.foldersContinue.take (CHUNK_SIZE quota)).length)
          s.foldersQueue.card)
      (resps : List FolderRes) :
      CrawlStep fp fs quota s .listBatch
        (processFolderBatch fp fs resps (takeFolderChunk quota takeQ s))
  | exitInner (s : CrawlSt) (hpc : s.pc = .innerCheck)
      (hc : s.foldersContinue = []) (hq : s.foldersQueue = ∅) :
      CrawlStep fp fs quota s .control (setPc s .idsCheck)
  | getBatch (s : CrawlSt) (hpc : s.pc = .idsCheck) (hne : s.idsQueue ≠ ∅)
      (takeQ : List Nat) (hnd : takeQ.Nodup)
      (hsub : ∀ i ∈ takeQ, i ∈ s.idsQueue)
      (hlen : takeQ.length = min s.idsQueue.card (CHUNK_SIZE quota))
      (resps : List FileRes) :
      CrawlStep fp fs quota s .getBatch
        (processGetBatch fp fs resps (takeIdsChunk takeQ (setPc s .outerCheck)))
  | skipIds (s : CrawlSt) (hpc : s.pc = .idsCheck) (he : s.idsQueue = ∅) :
      CrawlStep fp fs quota s .control (setPc s .outerCheck)

/-- The fresh initial frontier (dl.py lines 382-386). -/
def freshState (initialIds : List Nat) : CrawlSt :=
  ⟨[], ∅, ∅, initialIds.toFinset, ∅, .outerCheck⟩

/-- Initial frontier built from a recovery `Frontier` (restore or fix
mode); `folders_continue` always starts empty (dl.py line 370). -/
def ofFrontier (f : Frontier) : CrawlSt :=
  ⟨[], f.foldersQueue, f.foldersSeen, f.idsQueue, f.idsSeen, .outerCheck⟩

/-- States reachable by the crawl loop from any of its three initial
seedings. -/
inductive CrawlReach (fp fs : Bool) (quota : Nat) : CrawlSt → Prop where
  | initFresh (initialIds : List Nat) : CrawlReach fp fs quota (freshState initialIds)
  | initRestore (orig : List Nat) (meta : List (Nat × Bool)) (hier : List (Nat × Nat)) :
      CrawlReach fp fs quota (ofFrontier (restore_queues orig meta hier))
  | initFix (meta : List (Nat × Bool)) (hier : List (Nat × Nat)) :
      CrawlReach fp fs quota (ofFrontier (fix_restore_queues meta hier))
  | step {s : CrawlSt} {l : CrawlLabel} {s2 : CrawlSt} :
      CrawlReach fp fs quota s → CrawlStep fp fs quota s l s2 → CrawlReach fp fs quota s2

/-- The frontier disjointness invariant of the spec. -/
def FrontierInv (s : CrawlSt) : Prop :=
  Disjoint s.foldersQueue s.foldersSeen ∧ Disjoint s.idsQueue s.idsSeen

theorem foldl_inv {α β : Type} {P : α → Prop} (f : α → β → α)
    (hf : ∀ a b, P a → P (f a b)) :
    ∀ (l : List β) (a : α), P a → P (l.foldl f a) := by
  intro l
  induction l with
  | nil => intro a ha; simpa using ha
  | cons b rest ih =>
      intro a ha
      simpa using ih (f a b) (hf a b ha)

theorem addParentFolder_inv (s : CrawlSt) (p : Nat) (h : FrontierInv s) :
    FrontierInv (addParentFolder s p) := by
  unfold addParentFolder
  split
  · next hcond =>
      refine ⟨?_, h.2⟩
      simp only [Finset.disjoint_insert_left]
      exact ⟨hcond.1, h.1⟩
  · exact h

theorem queueParents_inv (fp : Bool) (res : FileRes) (s : CrawlSt)
    (h : FrontierInv s) : FrontierInv (queueParents fp res s) := by
  unfold queueParents
  split
  · match res.parents with
    | some ps =>
        exact foldl_inv addParentFolder (fun a b ha => addParentFolder_inv a b ha) ps s h
    | none => exact h
  · exact h

theorem queueFolderShortcut_inv (fs : Bool) (res : FileRes) (s : CrawlSt)
    (h : FrontierInv s) : FrontierInv (queueFolderShortcut fs res s) := by
  unfold queueFolderShortcut
  split
  · next hcond =>
      refine ⟨?_, h.2⟩
      simp only [Finset.disjoint_insert_left]
      exact ⟨hcond.2.1, h.1⟩
  · split
    · split
      · next hcond =>
          refine ⟨h.1, ?_⟩
          simp only [Finset.disjoint_insert_left]
          exact ⟨hcond.1, h.2⟩
      · exact h
    · exact h

theorem qpfs_inv (fp fs : Bool) (res : FileRes) (s : CrawlSt) (h : FrontierInv s) :
    FrontierInv (queue_parent_folder_shortcut fp fs res s) :=
  queueFolderShortcut_inv fs res _ (queueParents_inv fp res s h)

theorem processChild_inv (fp fs : Bool) (c : FileRes) (s : CrawlSt)
    (h : FrontierInv s) : FrontierInv (processChild fp fs c s) := by
  unfold processChild
  refine qpfs_inv fp fs c _ ⟨h.1, ?_⟩
  simp only [Finset.disjoint_insert_right]
  exact ⟨Finset.not_mem_erase _ _,
    Finset.disjoint_of_subset_left (Finset.erase_subset _ _) h.2⟩

theorem pushContinuation_inv (r : FolderRes) (s : CrawlSt) (h : FrontierInv s) :
    FrontierInv (pushContinuation r s) := by
  unfold pushContinuation
  match r.nextPage with
  | some tok => exact h
  | none => exact h

theorem processFolderRes_inv (fp fs : Bool) (r : FolderRes) (s : CrawlSt)
    (h : FrontierInv s) : FrontierInv (processFolderRes fp fs r s) :=
  foldl_inv _ (fun a b ha => processChild_inv fp fs b a ha) _ _
    (pushContinuation_inv r s h)

theorem takeFolderChunk_inv (quota : Nat) (takeQ : List Nat) (s : CrawlSt)
    (h : FrontierInv s) : FrontierInv (takeFolderChunk quota takeQ s) := by
  refine ⟨?_, h.2⟩
  simp only [takeFolderChunk, Finset.disjoint_union_right]
  exact ⟨Finset.disjoint_of_subset_left (Finset.sdiff_subset) h.1, Finset.sdiff_disjoint⟩

theorem takeIdsChunk_inv (takeQ : List Nat) (s : CrawlSt)
    (h : FrontierInv s) : FrontierInv (takeIdsChunk takeQ s) := by
  refine ⟨h.1, ?_⟩
  simp only [takeIdsChunk, Finset.disjoint_union_right]
  exact ⟨Finset.disjoint_of_subset_left (Finset.sdiff_subset) h.2, Finset.sdiff_disjoint⟩

theorem folderIds_subset_metaIds (meta : List (Nat × Bool)) :
    folderIds meta ⊆ metaIds meta := by
  intro x hx
  simp only [folderIds, List.mem_toFinset, List.mem_map] at hx
  obtain ⟨r, hr, hrx⟩ := hx
  simp only [metaIds, List.mem_toFinset, List.mem_map]
  exact ⟨r, (List.mem_filter.mp hr).1, hrx⟩

theorem nonFolderIds_subset_metaIds (meta : List (Nat × Bool)) :
    nonFolderIds meta ⊆ metaIds meta := by
  intro x hx
  simp only [nonFolderIds, List.mem_toFinset, List.mem_map] at hx
  obtain ⟨r, hr, hrx⟩ := hx
  simp only [metaIds, List.mem_toFinset, List.mem_map]
  exact ⟨r, (List.mem_filter.mp hr).1, hrx⟩

theorem restore_queues_inv (orig : List Nat) (meta : List (Nat × Bool))
    (hier : List (Nat × Nat)) : FrontierInv (ofFrontier (restore_queues orig meta hier)) := by
  constructor
  · exact Finset.disjoint_sdiff
  · exact Finset.sdiff_disjoint

theorem fix_restore_queues_inv (meta : List (Nat × Bool)) (hier : List (Nat × Nat)) :
    FrontierInv (ofFrontier (fix_restore_queues meta hier)) := by
  constructor
  · simp [ofFrontier, fix_restore_queues]
  · show Disjoint (haveChildren hier \ metaIds meta) (nonFolderIds meta ∪ folderIds meta)
    simp only [Finset.disjoint_union_right]
    constructor
    · exact Finset.disjoint_of_subset_right (nonFolderIds_subset_metaIds meta)
        Finset.sdiff_disjoint
    · exact Finset.disjoint_of_subset_right (folderIds_subset_metaIds meta)
        Finset.sdiff_disjoint

/-- C4: the frontier invariant `foldersQueue ∩ foldersSeen = ∅` and
`idsQueue ∩ idsSeen = ∅` holds in every reachable state of the crawl
machine: after initial seeding (fresh, restore-constructed, or
fix-constructed), after taking a chunk from either queue, and after every
fold of `queue_parent_folder_shortcut` inside a batch. -/
theorem frontier_disjoint (fp fs : Bool) (quota : Nat) (s : CrawlSt)
    (h : CrawlReach fp fs quota s) :
    Disjoint s.foldersQueue s.foldersSeen ∧ Disjoint s.idsQueue s.idsSeen := by
  induction h with
  | initFresh ids => exact ⟨Finset.disjoint_empty_right _, Finset.disjoint_empty_right _⟩
  | initRestore orig meta hier => exact restore_queues_inv orig meta hier
  | initFix meta hier => exact fix_restore_queues_inv meta hier
  | step hr hstep ih =>
      cases hstep with
      | enter hpc hw => exact ih
      | finish hpc hw => exact ih
      | listBatch hpc hw takeQ hnd hsub hlen resps =>
          exact foldl_inv _ (fun a b ha => processFolderRes_inv fp fs b a ha) resps _
            (takeFolderChunk_inv quota takeQ _ ih)
      | exitInner hpc hc hq => exact ih
      | getBatch hpc hne takeQ hnd hsub hlen resps =>
          exact foldl_inv _ (fun a b ha => qpfs_inv fp fs b a ha) resps _
            (takeIdsChunk_inv takeQ _ ih)
      | skipIds hpc he => exact ih

/-- C4 (witness): the invariant instantiated on a small reachable state,
reached by seeding ids 1 and 2 and taking a full generic-id chunk. -/
theorem frontier_disjoint_witness :
    Disjoint (freshState [1, 2]).foldersQueue (freshState [1, 2]).foldersSeen ∧
    Disjoint (freshState [1, 2]).idsQueue (freshState [1, 2]).idsSeen :=
  frontier_disjoint false false 1 (freshState [1, 2]) (CrawlReach.initFresh [1, 2])

theorem foldl_pc {β : Type} (f : CrawlSt → β → CrawlSt)
    (hf : ∀ a b, (f a b).pc = a.pc) :
    ∀ (l : List β) (a : CrawlSt), (l.foldl f a).pc = a.pc := by
  intro l
  induction l with
  | nil => intro a; rfl
  | cons b rest ih =>
      intro a
      calc (List.foldl f a (b :: rest)).pc = (List.foldl f (f a b) rest).pc := rfl
        _ = (f a b).pc := ih (f a b)
        _ = a.pc := hf a b

theorem addParentFolder_pc (s : CrawlSt) (p : Nat) : (addParentFolder s p).pc = s.pc := by
  unfold addParentFolder
  split <;> rfl

theorem queueParents_pc (fp : Bool) (res : FileRes) (s : CrawlSt) :
    (queueParents fp res s).pc = s.pc := by
  unfold queueParents
  split
  · match res.parents with
    | some ps => exact foldl_pc addParentFolder addParentFolder_pc ps s
    | none => rfl
  · rfl

theorem queueFolderShortcut_pc (fs : Bool) (res : FileRes) (s : CrawlSt) :
    (queueFolderShortcut fs res s).pc = s.pc := by
  unfold queueFolderShortcut
  split
  · rfl
  · split
    · split
      · rfl
      · rfl
    · rfl

theorem qpfs_pc (fp fs : Bool) (res : FileRes) (s : CrawlSt) :
    (queue_parent_folder_shortcut fp fs res s).pc = s.pc := by
  unfold queue_parent_folder_shortcut
  rw [queueFolderShortcut_pc, queueParents_pc]

theorem processChild_pc (fp fs : Bool) (c : FileRes) (s : CrawlSt) :
    (processChild fp fs c s).pc = s.pc :=
  qpfs_pc fp fs c _

theorem pushContinuation_pc (r : FolderRes) (s : CrawlSt) :
    (pushContinuation r s).pc = s.pc := by
  unfold pushContinuation
  match r.nextPage with
  | some tok => rfl
  | none => rfl

theorem processFolderRes_pc (fp fs : Bool) (r : FolderRes) (s : CrawlSt) :
    (processFolderRes fp fs r s).pc = s.pc := by
  unfold processFolderRes
  rw [foldl_pc _ (fun a b => processChild_pc fp fs b a), pushContinuation_pc]

theorem processFolderBatch_pc (fp fs : Bool) (resps : List FolderRes) (s : CrawlSt) :
    (processFolderBatch fp fs resps s).pc = s.pc :=
  foldl_pc _ (fun a b => processFolderRes_pc fp fs b a) resps s

theorem processGetBatch_pc (fp fs : Bool) (resps : List FileRes) (s : CrawlSt) :
    (processGetBatch fp fs resps s).pc = s.pc :=
  foldl_pc _ (fun a b => qpfs_pc fp fs b a) resps s

/-- In every reachable state sitting at the `if ids_queue:` test, all
folder work is already drained. -/
theorem reach_idsCheck_empty (fp fs : Bool) (quota : Nat) (s : CrawlSt)
    (h : CrawlReach fp fs quota s) (hpc : s.pc = .idsCheck) :
    s.foldersContinue = [] ∧ s.foldersQueue = ∅ := by
  induction h with
  | initFresh ids => simp [freshState] at hpc
  | initRestore orig meta hier => simp [ofFrontier] at hpc
  | initFix meta hier => simp [ofFrontier] at hpc
  | step hr hstep ih =>
      cases hstep with
      | enter hpc2 hw => simp [setPc] at hpc
      | finish hpc2 hw => simp [setPc] at hpc
      | listBatch hpc2 hw takeQ hnd hsub hlen resps =>
          exfalso
          rw [processFolderBatch_pc] at hpc
          simp [takeFolderChunk, hpc2] at hpc
      | exitInner hpc2 hc hq => exact ⟨hc, hq⟩
      | getBatch hpc2 hne takeQ hnd hsub hlen resps =>
          exfalso
          rw [processGetBatch_pc] at hpc
          simp [takeIdsChunk, setPc] at hpc
      | skipIds hpc2 he => simp [setPc] at hpc

/-- C3: folder work is strictly prioritized.  Whenever the crawl machine
issues a generic-id (`files.get`) batch, the folder continuation list and
the fresh folder queue are both empty at the moment of submission. -/
theorem folder_first (fp fs : Bool) (quota : Nat) (s : CrawlSt)
    (l : CrawlLabel) (s2 : CrawlSt) (hreach : CrawlReach fp fs quota s)
    (hstep : CrawlStep fp fs quota s .getBatch s2) :
    s.foldersContinue = [] ∧ s.foldersQueue = ∅ := by
  cases hstep with
  | getBatch hpc hne takeQ hnd hsub hlen resps =>
      exact reach_idsCheck_empty fp fs quota s hreach hpc

/-- C3 (witness): folder-first evaluated on a concrete run seeded with id
5, after entering the loop and draining (empty) folder work. -/
theorem folder_first_witness :
    (setPc (setPc (freshState [5]) .innerCheck) .idsCheck).foldersContinue = [] ∧
    (setPc (setPc (freshState [5]) .innerCheck) .idsCheck).foldersQueue = ∅ := by
  have h1 : CrawlReach false false 1 (setPc (freshState [5]) .innerCheck) :=
    CrawlReach.step (CrawlReach.initFresh [5])
      (CrawlStep.enter (freshState [5]) rfl (by right; right; decide))
  have h2 : CrawlReach false false 1 (setPc (setPc (freshState [5]) .innerCheck) .idsCheck) :=
    CrawlReach.step h1
      (CrawlStep.exitInner (setPc (freshState [5]) .innerCheck) rfl rfl rfl)
  exact folder_first false false 1 _ .getBatch _ h2
    (CrawlStep.getBatch _ rfl (by decide) [5] (by decide) (by decide) (by decide) [])

/-! ## Rate scheduler (rate_limit.py `rate_limited_as_completed`)

Discrete-event semantics of the scheduler.  Time is `Nat` (the monotonic
clock); `asyncio.sleep(d)` is modelled by the guarantee that the sleeper
resumes no earlier than `now + d` (asyncio never wakes a sleep early; it
may overshoot).  Task outcomes are an opaque type `α`: the scheduler never
inspects them, so every theorem below holds for all `α`.  Each transition
is one synchronous stretch of Python between two suspension points, which
is atomic under cooperative scheduling:

* `submitFast`/`sleepStart`: `_submit` resumes from `semaphore.acquire()`
  (so a unit is available), runs `_flush_times()`, tests the quota gate,
  and either creates the task or goes to sleep;
* `wake`: `_submit` resumes from `asyncio.sleep`, force-pops
  `end_times[0]`, and creates the task;
* `complete`: a task finishes; its `_on_completion` callback appends
  `time.monotonic()` to `end_times`, enqueues the future on `done`, and
  releases the semaphore;
* `get`: a consumer awaits one yielded `_wait_to_get()` coroutine, popping
  the front of `done` and exposing `f.result()` unchanged;
* `tick`: time passes.

Ghost fields: `hist` records all completions in completion order;
`consumed` records the results exposed to the caller in order. -/

/-- The `MIN_SLEEP` constant: any positive value; kept abstract as a
parameter of the transition system. -/
inductive SubPc where
  | idle
  | sleeping (wake : Nat)
  deriving DecidableEq

/-- One semaphore unit is held by `_submit` while it sleeps inside the
gate (acquired before the flush, released into the created task). -/
def sleepBit : SubPc → Nat
  | .idle => 0
  | .sleeping _ => 1

/-- Scheduler state.  `pending` holds the not-yet-submitted coroutines
(identified by their eventual outcome), `running` the in-flight tasks,
`endTimes` the `end_times` deque, `doneQ` the `done` queue. -/
structure RSt (α : Type) where
  pending : List α
  running : Multiset α
  endTimes : List Nat
  doneQ : List α
  consumed : List α
  hist : List (Nat × α)
  now : Nat
  pc : SubPc

/-- `_flush_times()` (rate_limit.py lines 28-31): evict, from the front,
timestamps strictly older than `period`. -/
def flushTimes (P now : Nat) (ts : List Nat) : List Nat :=
  ts.dropWhile (fun t => decide (now - t > P))

/-- Number of completions inside the half-open window `(t, t + P]`. -/
def WindowCount {α : Type} (hist : List (Nat × α)) (P t : Nat) : Nat :=
  (hist.filter (fun p => decide (t < p.1 ∧ p.1 ≤ t + P))).length

/-- Transitions of `rate_limited_as_completed` with concurrency cap `C`,
quota `Q`, window `P`, and minimum sleep `minSleep` (rate_limit.py line 7;
any positive constant).  The gate expression
`(max_concurrent - semaphore._value - 1) + len(end_times)` equals
`card running + len(end_times)` at the test point, because `_submit` holds
one acquired unit that the `- 1` discounts. -/
inductive RStep (C Q P minSleep : Nat) {α : Type} : RSt α → RSt α → Prop where
  | tick (s : RSt α) (t : Nat) (ht : s.now ≤ t) :
      RStep C Q P minSleep s { s with now := t }
  | complete (s : RSt α) (a : α) (rest : Multiset α) (hrun : s.running = a ::ₘ rest) :
      RStep C Q P minSleep s
        { s with running := rest,
                 endTimes := s.endTimes ++ [s.now],
                 doneQ := s.doneQ ++ [a],
                 hist := s.hist ++ [(s.now, a)] }
  | submitFast (s : RSt α) (a : α) (restP : List α) (hp : s.pending = a :: restP)
      (hidle : s.pc = .idle)
      (hsem : Multiset.card s.running < C)
      (hgate : Multiset.card s.running + (flushTimes P s.now s.endTimes).length < Q) :
      RStep C Q P minSleep s
        { s with pending := restP,
                 running := a ::ₘ s.running,
                 endTimes := flushTimes P s.now s.endTimes }
  | sleepStart (s : RSt α) (hne : s.pending ≠ []) (hidle : s.pc = .idle)
      (hsem : Multiset.card s.running < C)
      (t0 : Nat) (rest : List Nat)
      (hflush : flushTimes P s.now s.endTimes = t0 :: rest)
      (hgate : Q ≤ Multiset.card s.running + (flushTimes P s.now s.endTimes).length) :
      RStep C Q P minSleep s
        { s with endTimes := t0 :: rest,
                 pc := .sleeping (s.now + max (P - (s.now - t0)) minSleep) }
  | wake (s : RSt α) (w : Nat) (hpc : s.pc = .sleeping w) (hw : w ≤ s.now)
      (a : α) (restP : List α) (hp : s.pending = a :: restP) :
      RStep C Q P minSleep s
        { s with pending := restP,
                 running := a ::ₘ s.running,
                 endTimes := s.endTimes.tail,
                 pc := .idle }
  | get (s : RSt α) (a : α) (restD : List α) (hd : s.doneQ = a :: restD) :
      RStep C Q P minSleep s
        { s with doneQ := restD, consumed := s.consumed ++ [a] }

/-- Initial state: all coroutines pending, clock at `t0`. -/
def rInit {α : Type} (coros : List α) (t0 : Nat) : RSt α :=
  ⟨coros, 0, [], [], [], [], t0, .idle⟩

/-- Reachable states of one scheduler run over `coros`. -/
inductive RReach (C Q P minSleep : Nat) {α : Type} (coros : List α) (t0 : Nat) :
    RSt α → Prop where
  | init : RReach C Q P minSleep coros t0 (rInit coros t0)
  | step {s s2 : RSt α} : RReach C Q P minSleep coros t0 s →
      RStep C Q P minSleep s s2 → RReach C Q P minSleep coros t0 s2

/-- The inductive invariant of the scheduler. -/
structure RInv (C Q P N : Nat) {α : Type} (s : RSt α) : Prop where
  sorted : List.Sorted (· ≤ ·) s.endTimes
  endle : ∀ t ∈ s.endTimes, t ≤ s.now
  histle : ∀ p ∈ s.hist, p.1 ≤ s.now
  recent : ∀ v, s.now < v + P → (s.hist.map Prod.fst).count v ≤ s.endTimes.count v
  sem : Multiset.card s.running + sleepBit s.pc ≤ C
  gate : Multiset.card s.running + s.endTimes.length ≤ Q
  sleepOk : ∀ w, s.pc = .sleeping w →
    (∃ t0 rest, s.endTimes = t0 :: rest ∧ t0 + P ≤ w) ∧ s.pending ≠ []
  window : ∀ t, WindowCount s.hist P t ≤ Q
  flow : s.consumed ++ s.doneQ = s.hist.map Prod.snd
  total : s.pending.length + Multiset.card s.running + s.hist.length = N

theorem flushTimes_sublist (P now : Nat) (ts : List Nat) :
    (flushTimes P now ts).Sublist ts :=
  List.dropWhile_sublist _

theorem flushTimes_head_slow (P now : Nat) (ts : List Nat) (t0 : Nat) (rest : List Nat)
    (h : flushTimes P now ts = t0 :: rest) : ¬ (now - t0 > P) := by
  induction ts with
  | nil => simp [flushTimes] at h
  | cons c cs ih =>
      unfold flushTimes at h
      rw [List.dropWhile_cons] at h
      split at h
      · exact ih h
      · next hpred =>
          cases h
          simpa using hpred

theorem count_flushTimes_recent (P now : Nat) (ts : List Nat)
    (hle : ∀ t ∈ ts, t ≤ now) (v : Nat) (hv : now < v + P) :
    ts.count v ≤ (flushTimes P now ts).count v := by
  have hsplit : ts.takeWhile (fun t => decide (now - t > P)) ++ flushTimes P now ts = ts := by
    unfold flushTimes
    exact List.takeWhile_append_dropWhile _ _
  have hzero : (ts.takeWhile (fun t => decide (now - t > P))).count v = 0 := by
    rw [List.count_eq_zero]
    intro hmem
    have hpred := List.mem_takeWhile_imp hmem
    have hvts : v ∈ ts := (List.takeWhile_sublist _).mem hmem
    have := hle v hvts
    simp at hpred
    omega
  have hcnt := List.count_append v (ts.takeWhile (fun t => decide (now - t > P)))
    (flushTimes P now ts)
  rw [hsplit, hzero] at hcnt
  omega

theorem length_filter_le_of_count_le (l1 l2 : List Nat) (p : Nat → Bool)
    (h : ∀ v, p v = true → l1.count v ≤ l2.count v) :
    (l1.filter p).length ≤ l2.length := by
  have hm : ((l1.filter p : List Nat) : Multiset Nat) ≤ (l2 : Multiset Nat) := by
    rw [Multiset.le_iff_count]
    intro v
    rw [Multiset.coe_count, Multiset.coe_count]
    by_cases hp : p v = true
    · calc (l1.filter p).count v ≤ l1.count v :=
            List.Sublist.count_le (List.filter_sublist _) v
        _ ≤ l2.count v := h v hp
    · have : (l1.filter p).count v = 0 := by
        rw [List.count_eq_zero]
        intro hmem
        exact hp (List.of_mem_filter hmem)
      omega
  simpa using Multiset.card_le_card hm

theorem length_filter_fst {β : Type} (l : List (Nat × β)) (p : Nat → Bool) :
    (l.filter (fun q => p q.1)).length = ((l.map Prod.fst).filter p).length := by
  induction l with
  | nil => rfl
  | cons q rest ih =>
      simp only [List.filter_cons, List.map_cons]
      by_cases hp : p q.1
      · simp [hp, ih]
      · simp [hp, ih]

/-- The completions inside a window that ends no earlier than now are all
still tracked in `end_times`. -/
theorem window_le_endTimes {α : Type} {C Q P N : Nat} {s : RSt α}
    (inv : RInv C Q P N s) (t : Nat) (hlt : t < s.now) (hle2 : s.now ≤ t + P) :
    WindowCount s.hist P t ≤ s.endTimes.length := by
  have hswap : WindowCount s.hist P t =
      ((s.hist.map Prod.fst).filter (fun v => decide (t < v ∧ v ≤ t + P))).length :=
    length_filter_fst s.hist (fun v => decide (t < v ∧ v ≤ t + P))
  rw [hswap]
  refine length_filter_le_of_count_le _ _ _ ?_
  intro v hp
  simp only [decide_eq_true_eq] at hp
  refine inv.recent v ?_
  omega

/-- Preservation of the scheduler invariant. -/
theorem rinv_step {α : Type} {C Q P minSleep N : Nat} {s s2 : RSt α}
    (inv : RInv C Q P N s) (hstep : RStep C Q P minSleep s s2) :
    RInv C Q P N s2 := by
  obtain ⟨i1, i2, i3, i4, i5, i6, i7, i8, i9, i10⟩ := inv
  cases hstep with
  | tick t ht =>
      refine ⟨?_, ?_, ?_, ?_, ?_, ?_, ?_, ?_, ?_, ?_⟩ <;> dsimp only
      · exact i1
      · intro e he; exact (i2 e he).trans ht
      · intro p hp; exact (i3 p hp).trans ht
      · intro v hv; exact i4 v (by omega)
      · exact i5
      · exact i6
      · intro w hw; exact i7 w hw
      · exact i8
      · exact i9
      · exact i10
  | complete a rest hrun =>
      have hcard : Multiset.card s.running = Multiset.card rest + 1 := by
        rw [hrun]; simp
      have invc : RInv C Q P N s := ⟨i1, i2, i3, i4, i5, i6, i7, i8, i9, i10⟩
      refine ⟨?_, ?_, ?_, ?_, ?_, ?_, ?_, ?_, ?_, ?_⟩ <;> dsimp only
      · refine List.pairwise_append.mpr ⟨i1, List.pairwise_singleton _ _, ?_⟩
        intro e he b hb
        simp only [List.mem_singleton] at hb
        subst hb
        exact i2 e he
      · intro e he
        rcases List.mem_append.mp he with h1 | h1
        · exact i2 e h1
        · simp only [List.mem_singleton] at h1; omega
      · intro p hp
        rcases List.mem_append.mp hp with h1 | h1
        · exact i3 p h1
        · simp only [List.mem_singleton] at h1; subst h1; exact le_refl _
      · intro v hv
        have hold := i4 v hv
        simp only [List.map_append, List.map_cons, List.map_nil, List.count_append]
        omega
      · have := i5
        simp only [sleepBit] at this ⊢
        omega
      · have := i6
        simp only [List.length_append, List.length_singleton]
        omega
      · intro w hw
        obtain ⟨⟨t0, restE, hET, ht0⟩, hpend⟩ := i7 w hw
        exact ⟨⟨t0, restE ++ [s.now], by rw [hET]; rfl, ht0⟩, hpend⟩
      · intro t
        have hw := i8 t
        unfold WindowCount at hw ⊢
        rw [List.filter_append, List.length_append]
        by_cases hin : t < s.now ∧ s.now ≤ t + P
        · have hbound := window_le_endTimes invc t hin.1 hin.2
          unfold WindowCount at hbound
          simp only [List.filter_cons, List.filter_nil]
          split
          · simp only [List.length_singleton]
            omega
          · simp only [List.length_nil]
            omega
        · have hz : (List.filter (fun p => decide (t < p.1 ∧ p.1 ≤ t + P)) [(s.now, a)]).length = 0 := by
            simp only [List.filter_cons, List.filter_nil]
            split
            · next hdec =>
                exfalso
                simp only [decide_eq_true_eq] at hdec
                exact hin hdec
            · rfl
          omega
      · simp only [List.map_append, List.map_cons, List.map_nil]
        rw [← List.append_assoc, i9]
      · simp only [List.length_append, List.length_singleton]
        omega
  | submitFast a restP hp hidle hsem hgate =>
      have hlen : (flushTimes P s.now s.endTimes).length ≤ s.endTimes.length :=
        (flushTimes_sublist P s.now s.endTimes).length_le
      refine ⟨?_, ?_, ?_, ?_, ?_, ?_, ?_, ?_, ?_, ?_⟩ <;> dsimp only
      · exact List.Pairwise.sublist (flushTimes_sublist P s.now s.endTimes) i1
      · intro e he
        exact i2 e ((flushTimes_sublist P s.now s.endTimes).mem he)
      · exact i3
      · intro v hv
        exact (i4 v hv).trans (count_flushTimes_recent P s.now s.endTimes i2 v hv)
      · have := i5
        rw [hidle] at this ⊢
        simp only [sleepBit, Multiset.card_cons] at this ⊢
        omega
      · simp only [Multiset.card_cons]
        omega
      · intro w hw
        rw [hidle] at hw
        cases hw
      · exact i8
      · exact i9
      · have := i10
        rw [hp] at this
        simp only [List.length_cons, Multiset.card_cons] at this ⊢
        omega
  | sleepStart hne hidle hsem t0 rest hflush hgate =>
      have hsub : (t0 :: rest).Sublist s.endTimes := by
        rw [← hflush]; exact flushTimes_sublist P s.now s.endTimes
      have ht0now : t0 ≤ s.now :=
        i2 t0 (hsub.mem (List.mem_cons_self t0 rest))
      have hslow : ¬ (s.now - t0 > P) := flushTimes_head_slow P s.now s.endTimes t0 rest hflush
      refine ⟨?_, ?_, ?_, ?_, ?_, ?_, ?_, ?_, ?_, ?_⟩ <;> dsimp only
      · exact List.Pairwise.sublist hsub i1
      · intro e he; exact i2 e (hsub.mem he)
      · exact i3
      · intro v hv
        have := (i4 v hv).trans (count_flushTimes_recent P s.now s.endTimes i2 v hv)
        rw [hflush] at this
        exact this
      · have := i5
        rw [hidle] at this
        simp only [sleepBit] at this ⊢
        omega
      · have hl := hsub.length_le
        have := i6
        omega
      · intro w hw
        cases hw
        refine ⟨⟨t0, rest, rfl, ?_⟩, hne⟩
        have hmax : P - (s.now - t0) ≤ max (P - (s.now - t0)) minSleep := Nat.le_max_left _ _
        omega
      · exact i8
      · exact i9
      · exact i10
  | wake w hpc hw a restP hp =>
      obtain ⟨⟨t0, restE, hET, ht0⟩, hpend⟩ := i7 w hpc
      have htail : s.endTimes.tail = restE := by rw [hET, List.tail_cons]
      refine ⟨?_, ?_, ?_, ?_, ?_, ?_, ?_, ?_, ?_, ?_⟩ <;> dsimp only
      · exact List.Pairwise.sublist (List.tail_sublist _) i1
      · intro e he; exact i2 e ((List.tail_sublist _).mem he)
      · exact i3
      · intro v hv
        have hvne : v ≠ t0 := by
          intro hEq
          subst hEq
          omega
        have := i4 v hv
        rw [htail]
        rw [hET, List.count_cons_of_ne hvne] at this
        exact this
      · have := i5
        rw [hpc] at this
        simp only [sleepBit, Multiset.card_cons] at this ⊢
        omega
      · have := i6
        rw [hET] at this
        simp only [List.length_cons] at this
        rw [htail]
        simp only [Multiset.card_cons]
        omega
      · intro w2 hw2
        cases hw2
      · exact i8
      · exact i9
      · have := i10
        rw [hp] at this
        simp only [List.length_cons, Multiset.card_cons] at this ⊢
        omega
  | get a restD hd =>
      refine ⟨?_, ?_, ?_, ?_, ?_, ?_, ?_, ?_, ?_, ?_⟩ <;> dsimp only
      · exact i1
      · exact i2
      · exact i3
      · exact i4
      · exact i5
      · exact i6
      · intro w hw; exact i7 w hw
      · exact i8
      · rw [List.append_assoc, List.singleton_append, ← hd, i9]
      · exact i10

/-- Every reachable state satisfies the invariant. -/
theorem rinv_reach {α : Type} {C Q P minSleep : Nat} {coros : List α} {t0 : Nat}
    {s : RSt α} (h : RReach C Q P minSleep coros t0 s) :
    RInv C Q P coros.length s := by
  induction h with
  | init =>
      refine ⟨?_, ?_, ?_, ?_, ?_, ?_, ?_, ?_, ?_, ?_⟩
      · exact List.sorted_nil
      · intro e he; cases he
      · intro p hp; cases hp
      · intro v hv; simp [rInit]
      · simp [rInit, sleepBit]
      · simp [rInit]
      · intro w hw; cases hw
      · intro t; simp [rInit, WindowCount]
      · rfl
      · simp [rInit]
  | step hr hstep ih => exact rinv_step ih hstep

/-- C1: in every reachable scheduler state, the number of in-flight
operations is at most `max_concurrent`, and the number of completions
inside any half-open time window `(t, t + period]` is at most `quota`. -/
theorem rate_scheduler_bounds {α : Type} (C Q P minSleep : Nat) (coros : List α)
    (t0 : Nat) (s : RSt α) (h : RReach C Q P minSleep coros t0 s) :
    Multiset.card s.running ≤ C ∧ ∀ t, WindowCount s.hist P t ≤ Q := by
  have inv := rinv_reach h
  constructor
  · have := inv.sem
    have hb : 0 ≤ sleepBit s.pc := Nat.zero_le _
    omega
  · exact inv.window

/-- A three-step demonstration run: submit the only coroutine, let it
complete at time 0, and consume its result. -/
theorem demoReach : RReach 1 1 1 1 [7] 0
    (⟨[], 0, [0], [], [7], [(0, 7)], 0, .idle⟩ : RSt Nat) := by
  have h0 : RReach 1 1 1 1 [7] 0 (rInit [7] 0) := RReach.init
  have h1 : RReach 1 1 1 1 [7] 0 (⟨[], {7}, [], [], [], [], 0, .idle⟩ : RSt Nat) :=
    RReach.step h0 (RStep.submitFast (rInit [7] 0) 7 [] rfl rfl (by decide) (by decide))
  have h2 : RReach 1 1 1 1 [7] 0 (⟨[], 0, [0], [7], [], [(0, 7)], 0, .idle⟩ : RSt Nat) :=
    RReach.step h1 (RStep.complete _ 7 0 rfl)
  exact RReach.step h2 (RStep.get _ 7 [] rfl)

/-- C1 (witness): the bounds evaluated on the final state of `demoReach`. -/
theorem rate_scheduler_bounds_witness :
    Multiset.card (⟨[], 0, [0], [], [7], [(0, 7)], 0, .idle⟩ : RSt Nat).running ≤ 1 ∧
    WindowCount (⟨[], 0, [0], [], [7], [(0, 7)], 0, .idle⟩ : RSt Nat).hist 1 0 ≤ 1 :=
  ⟨(rate_scheduler_bounds 1 1 1 1 [7] 0 _ demoReach).1,
   (rate_scheduler_bounds 1 1 1 1 [7] 0 _ demoReach).2 0⟩

/-- C2: the scheduler is an exactly-once, completion-ordered pass-through.
In every reachable state the results exposed so far followed by the queued
ones equal the completion history's outcomes in completion order; pending,
in-flight, and completed counts always account for all `N` submitted
coroutines (the generator yields exactly `N` result awaitables, one `get`
per coroutine); and once everything is drained the caller has received
exactly the `N` outcomes, unaltered, in completion order. -/
theorem rate_scheduler_results {α : Type} (C Q P minSleep : Nat) (coros : List α)
    (t0 : Nat) (s : RSt α) (h : RReach C Q P minSleep coros t0 s) :
    s.consumed ++ s.doneQ = s.hist.map Prod.snd ∧
    s.pending.length + Multiset.card s.running + s.hist.length = coros.length ∧
    (s.pending = [] → s.running = 0 → s.doneQ = [] →
      s.consumed = s.hist.map Prod.snd ∧ s.consumed.length = coros.length) := by
  have inv := rinv_reach h
  refine ⟨inv.flow, inv.total, ?_⟩
  intro hpend hrun hdone
  have hflow := inv.flow
  rw [hdone, List.append_nil] at hflow
  refine ⟨hflow, ?_⟩
  have htot := inv.total
  rw [hpend, hrun] at htot
  simp only [List.length_nil, Multiset.card_zero] at htot
  rw [hflow, List.length_map]
  omega

/-- C2 (witness): the pass-through property on the final state of
`demoReach`: the single outcome 7 was exposed exactly once, in completion
order. -/
theorem rate_scheduler_results_witness :
    (⟨[], 0, [0], [], [7], [(0, 7)], 0, .idle⟩ : RSt Nat).consumed =
      ((⟨[], 0, [0], [], [7], [(0, 7)], 0, .idle⟩ : RSt Nat).hist.map Prod.snd) ∧
    (⟨[], 0, [0], [], [7], [(0, 7)], 0, .idle⟩ : RSt Nat).consumed.length = 1 :=
  (rate_scheduler_results 1 1 1 1 [7] 0 _ demoReach).2.2 rfl rfl rfl

/-! ## Download materializer (dl.py `download_and_save` / `create_folders_dump_metadata`)

Ids are opaque `Nat`; a filesystem path is the list of name tokens joined
by `os.path.join` (one token per component, extensions appended as extra
tokens).  The environment bundles the filesystem snapshot and the
string-derived observations the code makes on ids (`startswith("0B")`,
`item.filename()`, the owner denylists of export_config.py); dl.py never
reads a file's on-disk size during this pass, so `fileSize` exists in the
environment only to state the specification's size condition.  Filesystem
writes are recorded as events against the initial snapshot. -/

/-- Mime kinds distinguished by the materializer.  `workspace exts` carries
the export extensions `WORKSPACE_EXPORT[mime]` mapped through
`WORKSPACE_EXPORT_MIME_EXTENSION` as path tokens. -/
inductive DMime where
  | folder
  | workspace (exts : List Nat)
  | raw
  deriving DecidableEq

/-- The metadata fields of one stored item read by the materializer.
`owners` holds one optional email token per owner. -/
structure MMeta where
  id : Nat
  mimeType : DMime
  owners : List (Option Nat)
  size : Option Nat
  deriving DecidableEq

/-- The store as read by the download pass. -/
structure Store where
  metadata : List (Nat × MMeta)
  hierarchy : List (Nat × Nat)

/-- `load_metadata` (dl.py lines 649-653): `fetchone()` on the primary-key
lookup; a missing row makes the Python raise (caught per item). -/
def loadMetadata (store : Store) (id : Nat) : Option MMeta :=
  (store.metadata.find? (fun r => r.1 == id)).map (fun r => r.2)

/-- `load_children` (dl.py lines 655-659). -/
def loadChildren (store : Store) (id : Nat) : List Nat :=
  (store.hierarchy.filter (fun e => e.1 == id)).map (fun e => e.2)

/-- The ids carried by stored metadata rows (the `item["id"]` values the
cycle check compares). -/
def storeIds (store : Store) : Finset Nat :=
  (store.metadata.map (fun r => r.2.id)).toFinset

/-- Environment of the download pass. -/
structure DlEnv where
  pathExists : List Nat → Bool
  fileSize : List Nat → Option Nat
  fname : MMeta → Nat
  is0B : Nat → Bool
  blacklisted : Nat → Bool
  opSucceeds : Nat → Bool
  jsonTok : Nat

/-- Observable events of the materializer. -/
inductive MatEv where
  | loopDetected (id : Nat)
  | mkdir (path : List Nat)
  | sidecar (path : List Nat)
  | scheduled (id : Nat) (path : List Nat)
  | skipped (path : List Nat)
  | flushed (n : Nat)
  | abandoned (id : Nat)
  deriving DecidableEq

/-- Mutable state threaded through the walk: the `downloaded` table, the
module-level `things_to_download` batch, and the event log. -/
structure MatSt where
  downloaded : Finset Nat
  pending : List Nat
  events : List MatEv

/-- The owner-denylist test (dl.py lines 673-688): an owner with a visible
email that matches `OWNER_BLACKLIST` or some `REGEX_BLACKLIST` entry. -/
def blacklistHit (env : DlEnv) (owners : List (Option Nat)) : Bool :=
  owners.any (fun o =>
    match o with
    | some e => env.blacklisted e
    | none => false)

/-- The batch flush (dl.py lines 794-806): once more than
`max_concurrent * 100` operations are queued, drain them through the rate
scheduler and record the ids of the successful ones. -/
def maybeFlush (env : DlEnv) (C : Nat) (st : MatSt) : MatSt :=
  if st.pending.length > C * 100 then
    ⟨st.downloaded ∪ (st.pending.filter env.opSucceeds).toFinset, [],
     st.events ++ [.flushed st.pending.length]⟩
  else st

/-- The sidecar metadata write (dl.py lines 789-792). -/
def sidecarWrite (env : DlEnv) (itemPath : List Nat) (st : MatSt) : MatSt :=
  if env.pathExists (itemPath ++ [env.jsonTok]) then st
  else { st with events := st.events ++ [.sidecar (itemPath ++ [env.jsonTok])] }

/-- The per-export-format loop of the Workspace branch (dl.py lines
734-762).  `did_succeed` starts as the `downloaded`-table lookup and is
cleared the first time an export is scheduled. -/
def exportLoop (env : DlEnv) (itemPath : List Nat) (id : Nat) :
    List Nat → Bool → MatSt → MatSt
  | [], _, st => st
  | ext :: rest, did_succeed, st =>
      if (!env.pathExists (itemPath ++ [ext])) || (!did_succeed) then
        exportLoop env itemPath id rest false
          { (if did_succeed then
               { st with downloaded := st.downloaded.erase id } else st) with
            pending := (if did_succeed then
               { st with downloaded := st.downloaded.erase id } else st).pending ++ [id],
            events := (if did_succeed then
               { st with downloaded := st.downloaded.erase id } else st).events ++
              [.scheduled id (itemPath ++ [ext])] }
      else
        exportLoop env itemPath id rest did_succeed
          { st with events := st.events ++ [.skipped (itemPath ++ [ext])] }

/-- The non-folder branch of `create_folders_dump_metadata` (dl.py lines
708-787): the `only_0B` filter, then the Workspace-export fan-out or the
single raw download, skipping work whose destination exists and whose id is
recorded as downloaded.  The comment at lines 764-765 notes the size is
deliberately not checked. -/
def processFileItem (env : DlEnv) (only0B : Bool) (itemPath : List Nat)
    (m : MMeta) (st : MatSt) : MatSt :=
  if only0B && !(env.is0B m.id) then st
  else
    match m.mimeType with
    | DMime.workspace exts =>
        exportLoop env itemPath m.id exts (decide (m.id ∈ st.downloaded)) st
    | _ =>
        if (!env.pathExists itemPath) || (!decide (m.id ∈ st.downloaded)) then
          { (if decide (m.id ∈ st.downloaded) then
               { st with downloaded := st.downloaded.erase m.id } else st) with
            pending := (if decide (m.id ∈ st.downloaded) then
               { st with downloaded := st.downloaded.erase m.id } else st).pending ++ [m.id],
            events := (if decide (m.id ∈ st.downloaded) then
               { st with downloaded := st.downloaded.erase m.id } else st).events ++
              [.scheduled m.id itemPath] }
        else { st with events := st.events ++ [.skipped itemPath] }

/-- The loop over a folder's children (dl.py lines 700-705), parametrized
by the recursive call `rec`.  A missing metadata row raises inside this
frame; the enclosing handler then abandons the rest of the children
(returning `true`), leaving the visited set as is. -/
def childrenFoldAux (store : Store)
    (rec : List Nat → MMeta → List Nat → Finset Nat → MatSt →
      Option (Finset Nat × MatSt)) (itemPath : List Nat) :
    List Nat → Finset Nat → MatSt → Option (Bool × Finset Nat × MatSt)
  | [], idSet, st => some (false, idSet, st)
  | c :: rest, idSet, st =>
      match loadMetadata store c with
      | none => some (true, idSet, st)
      | some cm =>
          match rec itemPath cm (loadChildren store c) idSet st with
          | none => none
          | some (idSet2, st2) => childrenFoldAux store rec itemPath rest idSet2 st2

/-- The body of `create_folders_dump_metadata` (dl.py lines 670-810) with
the recursive call abstracted: owner denylist, per-branch cycle check,
folder recursion (visited id added before and removed after the children,
but kept on an abandoned branch, as in the source), file scheduling,
sidecar write, and batch flush. -/
def cfdmBody (env : DlEnv) (store : Store) (C : Nat) (only0B : Bool)
    (rec : List Nat → MMeta → List Nat → Finset Nat → MatSt →
      Option (Finset Nat × MatSt))
    (path : List Nat) (m : MMeta) (children : List Nat) (idSet : Finset Nat)
    (st : MatSt) : Option (Finset Nat × MatSt) :=
  if blacklistHit env m.owners then some (idSet, st)
  else if m.id ∈ idSet then
    some (idSet, { st with events := st.events ++ [.loopDetected m.id] })
  else
    match m.mimeType with
    | DMime.folder =>
        match childrenFoldAux store rec (path ++ [env.fname m]) children
            (insert m.id idSet)
            { st with events := st.events ++ [.mkdir (path ++ [env.fname m])] } with
        | none => none
        | some (aborted, idSet2, st2) =>
            if aborted then
              some (idSet2, { st2 with events := st2.events ++ [.abandoned m.id] })
            else
              some (idSet2.erase m.id,
                maybeFlush env C (sidecarWrite env (path ++ [env.fname m]) st2))
    | _ =>
        some (idSet,
          maybeFlush env C (sidecarWrite env (path ++ [env.fname m])
            (processFileItem env only0B (path ++ [env.fname m]) m st)))

/-- `create_folders_dump_metadata` with explicit recursion fuel; `none`
marks fuel exhaustion (which C8 proves unreachable for sufficient fuel). -/
def cfdm (env : DlEnv) (store : Store) (C : Nat) (only0B : Bool) :
    Nat → List Nat → MMeta → List Nat → Finset Nat → MatSt →
      Option (Finset Nat × MatSt)
  | 0, _, _, _, _, _ => none
  | Nat.succ fuel, path, m, children, idSet, st =>
      cfdmBody env store C only0B (cfdm env store C only0B fuel) path m children idSet st

theorem loadMetadata_id_mem (store : Store) (c : Nat) (cm : MMeta)
    (h : loadMetadata store c = some cm) : cm.id ∈ storeIds store := by
  unfold loadMetadata at h
  rw [Option.map_eq_some'] at h
  obtain ⟨pr, hfind, hpr⟩ := h
  have hmem : pr ∈ store.metadata := List.mem_of_find?_eq_some hfind
  subst hpr
  unfold storeIds
  rw [List.mem_toFinset, List.mem_map]
  exact ⟨pr, hmem, rfl⟩

theorem childrenFoldAux_some (store : Store)
    (rec : List Nat → MMeta → List Nat → Finset Nat → MatSt →
      Option (Finset Nat × MatSt)) (bound : Nat)
    (hrec : ∀ path cm ch idS st, cm.id ∈ storeIds store →
      (storeIds store \ idS).card < bound →
      ∃ o1 o2, rec path cm ch idS st = some (o1, o2) ∧ idS ⊆ o1) :
    ∀ (cs : List Nat) (itemPath : List Nat) (idS : Finset Nat) (st : MatSt),
      (storeIds store \ idS).card < bound →
      ∃ b o1 o2, childrenFoldAux store rec itemPath cs idS st = some (b, o1, o2) ∧
        idS ⊆ o1 := by
  intro cs
  induction cs with
  | nil =>
      intro itemPath idS st hb
      exact ⟨false, idS, st, rfl, Finset.Subset.refl _⟩
  | cons c rest ih =>
      intro itemPath idS st hb
      cases hm : loadMetadata store c with
      | none =>
          refine ⟨true, idS, st, ?_, Finset.Subset.refl _⟩
          simp [childrenFoldAux, hm]
      | some cm =>
          have hcm : cm.id ∈ storeIds store := loadMetadata_id_mem store c cm hm
          obtain ⟨o1, o2, hrec1, hsub1⟩ :=
            hrec itemPath cm (loadChildren store c) idS st hcm hb
          have hb2 : (storeIds store \ o1).card < bound := by
            have hss : storeIds store \ o1 ⊆ storeIds store \ idS :=
              Finset.sdiff_subset_sdiff (Finset.Subset.refl _) hsub1
            have := Finset.card_le_card hss
            omega
          obtain ⟨b, p1, p2, hfold, hsub2⟩ := ih itemPath o1 o2 hb2
          refine ⟨b, p1, p2, ?_, hsub1.trans hsub2⟩
          simp only [childrenFoldAux, hm, hrec1]
          exact hfold

/-- C8: materialization never recurses unboundedly.  With fuel exceeding
the number of stored ids not yet on the current branch, the walk always
terminates (never exhausts fuel) and returns a visited set extending the
input; and whenever an item's id is already on the branch (a cycle,
directly or transitively), the branch is abandoned immediately after
logging the loop, with no recursion into the children. -/
theorem cycle_safety (env : DlEnv) (store : Store) (C : Nat) (only0B : Bool) :
    (∀ fuel path m children idSet st,
      m.id ∈ storeIds store → (storeIds store \ idSet).card < fuel →
      ∃ idSet2 st2,
        cfdm env store C only0B fuel path m children idSet st = some (idSet2, st2) ∧
        idSet ⊆ idSet2) ∧
    (∀ fuel path m children idSet st,
      blacklistHit env m.owners = false → m.id ∈ idSet →
      cfdm env store C only0B (fuel + 1) path m children idSet st =
        some (idSet, { st with events := st.events ++ [MatEv.loopDetected m.id] })) := by
  constructor
  · intro fuel
    induction fuel with
    | zero =>
        intro path m children idSet st hmem hcard
        omega
    | succ fuel ih =>
        intro path m children idSet st hmem hcard
        simp only [cfdm, cfdmBody]
        by_cases hbl : blacklistHit env m.owners
        · rw [if_pos hbl]
          exact ⟨idSet, st, rfl, Finset.Subset.refl _⟩
        · rw [if_neg hbl]
          by_cases hin : m.id ∈ idSet
          · rw [if_pos hin]
            exact ⟨idSet, _, rfl, Finset.Subset.refl _⟩
          · rw [if_neg hin]
            cases hmt : m.mimeType with
            | folder =>
                have hcard2 : (storeIds store \ insert m.id idSet).card < fuel := by
                  rw [Finset.sdiff_insert]
                  have hmm : m.id ∈ storeIds store \ idSet := by
                    rw [Finset.mem_sdiff]
                    exact ⟨hmem, hin⟩
                  rw [Finset.card_erase_of_mem hmm]
                  have hpos : 0 < (storeIds store \ idSet).card :=
                    Finset.card_pos.mpr ⟨m.id, hmm⟩
                  omega
                obtain ⟨b, o1, o2, hfold, hsub⟩ :=
                  childrenFoldAux_some store (cfdm env store C only0B fuel) fuel
                    (fun path2 cm ch idS st2 hcm hb => ih path2 cm ch idS st2 hcm hb)
                    children (path ++ [env.fname m]) (insert m.id idSet)
                    { st with events := st.events ++ [.mkdir (path ++ [env.fname m])] }
                    hcard2
                rw [hfold]
                have hins : idSet ⊆ o1 := (Finset.subset_insert _ _).trans hsub
                cases b with
                | true =>
                    exact ⟨o1, _, rfl, hins⟩
                | false =>
                    refine ⟨o1.erase m.id, _, rfl, ?_⟩
                    intro x hx
                    rw [Finset.mem_erase]
                    refine ⟨?_, hins hx⟩
                    intro hEq
                    subst hEq
                    exact hin hx
            | workspace exts =>
                exact ⟨idSet, _, rfl, Finset.Subset.refl _⟩
            | raw =>
                exact ⟨idSet, _, rfl, Finset.Subset.refl _⟩
  · intro fuel path m children idSet st hbl hin
    simp only [cfdm, cfdmBody, hbl, hin]
    simp

/-- A store in which folder 1 stores itself as its own child. -/
def cyclicStore : Store :=
  ⟨[(1, ⟨1, DMime.folder, [], none⟩)], [(1, 1)]⟩

/-- A trivial concrete environment for the witnesses. -/
def cEnv : DlEnv :=
  ⟨fun _ => true, fun _ => some 10, fun _ => 0, fun _ => false, fun _ => false,
   fun _ => true, 99⟩

/-- C8 (witness): on the self-containing folder store, materialization of
the root terminates with fuel 2, and the cycle check fires on the repeated
id. -/
theorem cycle_safety_witness :
    (∃ idSet2 st2,
      cfdm cEnv cyclicStore 1 false 2 [] ⟨1, DMime.folder, [], none⟩ [1] ∅ ⟨∅, [], []⟩ =
        some (idSet2, st2) ∧ (∅ : Finset Nat) ⊆ idSet2) ∧
    cfdm cEnv cyclicStore 1 false 3 [] ⟨1, DMime.folder, [], none⟩ [1] {1} ⟨∅, [], []⟩ =
      some ({1}, ⟨∅, [], [MatEv.loopDetected 1]⟩) :=
  ⟨(cycle_safety cEnv cyclicStore 1 false).1 2 [] ⟨1, DMime.folder, [], none⟩ [1] ∅
      ⟨∅, [], []⟩ (by decide) (by decide),
   (cycle_safety cEnv cyclicStore 1 false).2 2 [] ⟨1, DMime.folder, [], none⟩ [1] {1}
      ⟨∅, [], []⟩ (by decide) (by decide)⟩

/-- The exports actually scheduled by the export loop: one per format whose
destination is missing or for which the success record no longer stands (a
single earlier missing export clears it for the rest). -/
def scheduledExts (env : DlEnv) (itemPath : List Nat) :
    List Nat → Bool → List Nat
  | [], _ => []
  | ext :: rest, did =>
      if env.pathExists (itemPath ++ [ext]) && did then
        scheduledExts env itemPath rest did
      else ext :: scheduledExts env itemPath rest false

theorem exportLoop_pending (env : DlEnv) (itemPath : List Nat) (id : Nat) :
    ∀ (exts : List Nat) (did : Bool) (st : MatSt),
      (exportLoop env itemPath id exts did st).pending =
        st.pending ++ (scheduledExts env itemPath exts did).map (fun _ => id) := by
  intro exts
  induction exts with
  | nil => intro did st; simp [exportLoop, scheduledExts]
  | cons ext rest ih =>
      intro did st
      simp only [exportLoop, scheduledExts]
      cases hex : env.pathExists (itemPath ++ [ext]) <;> cases did <;>
        simp [hex, ih, List.append_assoc]

/-- C6 (amended): an operation is skipped exactly when its destination path
exists and the item's id is recorded in the `downloaded` table at the time
of the check (for Workspace exports, a single earlier missing export clears
the record, so all later exports of the item are scheduled too); the
expected byte size is never consulted. -/
theorem download_skip_rule :
    (∀ (env : DlEnv) (itemPath : List Nat) (m : MMeta) (st : MatSt),
      (∀ e, m.mimeType ≠ DMime.workspace e) →
      (processFileItem env false itemPath m st).pending =
        (if env.pathExists itemPath = true ∧ m.id ∈ st.downloaded then st.pending
         else st.pending ++ [m.id])) ∧
    (∀ (env : DlEnv) (itemPath : List Nat) (m : MMeta) (st : MatSt) (exts : List Nat),
      m.mimeType = DMime.workspace exts →
      (processFileItem env false itemPath m st).pending =
        st.pending ++
          (scheduledExts env itemPath exts (decide (m.id ∈ st.downloaded))).map
            (fun _ => m.id)) := by
  constructor
  · intro env itemPath m st hnw
    cases hmt : m.mimeType with
    | workspace exts => exact absurd hmt (hnw exts)
    | folder =>
        simp only [processFileItem, hmt, Bool.false_and, Bool.not_eq_true]
        cases hex : env.pathExists itemPath <;>
          by_cases hd : m.id ∈ st.downloaded <;>
            simp [hex, hd]
    | raw =>
        simp only [processFileItem, hmt, Bool.false_and, Bool.not_eq_true]
        cases hex : env.pathExists itemPath <;>
          by_cases hd : m.id ∈ st.downloaded <;>
            simp [hex, hd]
  · intro env itemPath m st exts hmt
    simp only [processFileItem, hmt, Bool.false_and, Bool.not_eq_true]
    simp [exportLoop_pending]

/-- C6 (counterexample item): a raw file with a known size. -/
def cItem : MMeta := ⟨1, DMime.raw, [], some 10⟩

/-- C6 (counterexample state): nothing recorded as downloaded. -/
def cSt : MatSt := ⟨∅, [], []⟩

/-- C6 (counterexample): the destination exists and its on-disk size equals
the item's expected size, yet because the id is not in the `downloaded`
table the code schedules the download — the claim says this case is
skipped.  (The size is never read at all.) -/
theorem download_skip_counterexample :
    cEnv.pathExists [0] = true ∧
    cEnv.fileSize [0] = cItem.size ∧
    cItem.id ∉ cSt.downloaded ∧
    (processFileItem cEnv false [0] cItem cSt).pending = [1] := by
  refine ⟨rfl, rfl, by decide, by decide⟩

/-- C6 (witness): the amended skip rule evaluated on the counterexample
input. -/
theorem download_skip_rule_witness :
    (processFileItem cEnv false [0] cItem cSt).pending =
      (if cEnv.pathExists [0] = true ∧ cItem.id ∈ cSt.downloaded then cSt.pending
       else cSt.pending ++ [cItem.id]) :=
  download_skip_rule.1 cEnv [0] cItem cSt (by intro e h; cases h)

end DriveTool
